import Mathlib

/-!
A shallow embedding of `antcolony.py` (class `AntColony`): Ant Colony
Optimization for the TSP with a MIN-MAX pheromone update.

Numeric model: the Python code computes with IEEE-754 doubles, including
`np.inf` values (forbidden edges) and `nan` arising from `0/0`.  We embed
this numeric fragment exactly, with rationals in place of finite doubles
(the operations used by the code -- addition, multiplication, division,
clipping, comparisons -- are exact on the inputs the claims quantify over,
so no rounding is modelled).  The exponents `alpha` and `beta` are floats
in the code; they are modelled as naturals, matching numpy semantics at
nonnegative integer values (in particular `x ** 0.0 = 1.0` for every `x`,
including `0.0` and `nan`).

Randomness: `np.random.choice(a, 1, p)` first validates `p` (size match,
nonnegativity, NaN in the sum, sum equal to 1 -- in that order, raising
`ValueError` otherwise) and then samples an index with the given
probabilities; exactly the indices with positive probability can be
returned.  We model the sampler by threading an oracle: `pick_move` takes
the oracle's proposed index and returns it when it is a possible sample,
and some fixed possible sample otherwise, so every value `pick_move`
returns is a genuinely possible outcome of the program and every possible
outcome is realized by some oracle.
-/

namespace ACO

/-- The IEEE-754 double fragment the program computes in: `nan`, the two
infinities, and finite values (exact rationals). -/
inductive F where
  | nan : F
  | ninf : F
  | fin (q : ℚ) : F
  | inf : F
  deriving DecidableEq, Repr

/-- IEEE addition on the fragment (no rounding: finite values are exact). -/
def F.add : F → F → F
  | F.nan, _ => F.nan
  | _, F.nan => F.nan
  | F.inf, F.ninf => F.nan
  | F.ninf, F.inf => F.nan
  | F.inf, _ => F.inf
  | _, F.inf => F.inf
  | F.ninf, _ => F.ninf
  | _, F.ninf => F.ninf
  | F.fin q, F.fin r => F.fin (q + r)

/-- IEEE multiplication on the fragment (`0 * inf = nan`). -/
def F.mul : F → F → F
  | F.nan, _ => F.nan
  | _, F.nan => F.nan
  | F.inf, F.inf => F.inf
  | F.inf, F.ninf => F.ninf
  | F.ninf, F.inf => F.ninf
  | F.ninf, F.ninf => F.inf
  | F.inf, F.fin q => if q = 0 then F.nan else if 0 < q then F.inf else F.ninf
  | F.fin q, F.inf => if q = 0 then F.nan else if 0 < q then F.inf else F.ninf
  | F.ninf, F.fin q => if q = 0 then F.nan else if 0 < q then F.ninf else F.inf
  | F.fin q, F.ninf => if q = 0 then F.nan else if 0 < q then F.ninf else F.inf
  | F.fin q, F.fin r => F.fin (q * r)

/-- IEEE division on the fragment (`0/0 = nan`, `q/0 = ±inf` as numpy
produces with a runtime warning, `q/inf = 0`, `inf/inf = nan`). -/
def F.div : F → F → F
  | F.nan, _ => F.nan
  | _, F.nan => F.nan
  | F.inf, F.inf => F.nan
  | F.inf, F.ninf => F.nan
  | F.ninf, F.inf => F.nan
  | F.ninf, F.ninf => F.nan
  | F.inf, F.fin q => if 0 ≤ q then F.inf else F.ninf
  | F.ninf, F.fin q => if 0 ≤ q then F.ninf else F.inf
  | F.fin _, F.inf => F.fin 0
  | F.fin _, F.ninf => F.fin 0
  | F.fin q, F.fin r =>
      if r = 0 then (if q = 0 then F.nan else if 0 < q then F.inf else F.ninf)
      else F.fin (q / r)

/-- `x ** n` for a natural exponent, with numpy's `x ** 0.0 = 1.0` for
every `x` (also `0.0` and `nan`). -/
def F.powN (x : F) : ℕ → F
  | 0 => F.fin 1
  | n + 1 => F.mul x (F.powN x n)

/-- IEEE strict less-than: every comparison with `nan` is false. -/
def F.ltB : F → F → Bool
  | F.nan, _ => false
  | _, F.nan => false
  | F.ninf, F.ninf => false
  | F.ninf, _ => true
  | _, F.ninf => false
  | F.inf, _ => false
  | F.fin _, F.inf => true
  | F.fin q, F.fin r => q < r

/-- IEEE less-or-equal: every comparison with `nan` is false. -/
def F.leB : F → F → Bool
  | F.nan, _ => false
  | _, F.nan => false
  | F.ninf, _ => true
  | _, F.ninf => false
  | _, F.inf => true
  | F.inf, F.fin _ => false
  | F.fin q, F.fin r => q ≤ r

/-- `np.maximum`: propagates `nan`, otherwise the larger argument. -/
def F.maxN (a b : F) : F :=
  if a = F.nan ∨ b = F.nan then F.nan else if F.ltB a b then b else a

/-- `np.minimum`: propagates `nan`, otherwise the smaller argument. -/
def F.minN (a b : F) : F :=
  if a = F.nan ∨ b = F.nan then F.nan else if F.ltB b a then b else a

/-- `np.clip(x, lo, hi) = np.minimum(np.maximum(x, lo), hi)`. -/
def F.clip (x lo hi : F) : F := F.minN (F.maxN x lo) hi

def F.isNaN : F → Bool
  | F.nan => true
  | _ => false

/-- Sum of a list of values, as `sum`/`ndarray.sum` folding from `0.0`. -/
def sumF (l : List F) : F := l.foldl F.add (F.fin 0)

/-- `x` with `v` added `k` times (the cumulative effect of `k` identical
in-place `+=` increments). -/
def F.addMany (x v : F) : ℕ → F
  | 0 => x
  | k + 1 => F.add (F.addMany x v k) v

/-- A value that is an actual extended real: finite or `+inf` (what sums of
nonnegative-or-infinite distances produce; excludes `nan` and `-inf`). -/
def F.IsReal (x : F) : Prop := x = F.inf ∨ ∃ q : ℚ, x = F.fin q

instance (x : F) : Decidable (F.IsReal x) := by
  unfold F.IsReal
  cases x with
  | nan => exact .isFalse (by simp)
  | ninf => exact .isFalse (by simp)
  | fin q => exact .isTrue (by simp)
  | inf => exact .isTrue (by simp)

/-- An `np.ndarray` of shape `(rows, cols)`; `entry i j` is only meaningful
for `i < rows`, `j < cols` (Python would raise `IndexError` outside). -/
structure Mat where
  rows : ℕ
  cols : ℕ
  entry : ℕ → ℕ → F

/-- The state held by an `AntColony` object (`__init__`, lines 24-35). -/
structure AntColony where
  distances : Mat
  pheromone : Mat
  all_indexes : List ℕ
  nr_ants : ℕ
  nr_best : ℕ
  nr_iterations : ℕ
  decay : ℚ
  alpha : ℕ
  beta : ℕ
  phero_min : ℚ
  phero_max : ℚ
  nprocs : ℕ

/-- `AntColony.__init__`: stores every parameter unvalidated and sets
`pheromone = np.ones(distances.shape) / len(distance_matrix)` and
`all_indexes = range(len(distance_matrix))`; `nprocs = max(nr_procs, 1)`.
The Python code performs no validation whatsoever: there is no check of
squareness, entry signs, matrix size, or parameter ranges, and no
exception is raised, so construction is a total function. -/
def mkAntColony (distance_matrix : Mat) (nr_ants nr_best nr_iterations : ℕ)
    (decay : ℚ) (alpha beta : ℕ)
    (phero_min : ℚ := 0) (phero_max : ℚ := 1) (nr_procs : ℕ := 1) : AntColony :=
  { distances := distance_matrix
    pheromone :=
      { rows := distance_matrix.rows
        cols := distance_matrix.cols
        entry := fun _ _ => F.div (F.fin 1) (F.fin distance_matrix.rows) }
    all_indexes := List.range distance_matrix.rows
    nr_ants := nr_ants
    nr_best := nr_best
    nr_iterations := nr_iterations
    decay := decay
    alpha := alpha
    beta := beta
    phero_min := phero_min
    phero_max := phero_max
    nprocs := max nr_procs 1 }

/-- The `ValueError`s `np.random.choice` can raise while validating its
arguments, in the order numpy checks them. -/
inductive NpChoiceError where
  | sizeMismatch : NpChoiceError
  | probsNotNonneg : NpChoiceError
  | probsContainNaN : NpChoiceError
  | probsDontSumToOne : NpChoiceError
  deriving DecidableEq, Repr

/-- Every way an embedded run can fail.  `choice e` is a `ValueError`
raised by `np.random.choice` inside `pick_move`; `minOfEmpty` is the
`ValueError` of Python's `min` on an empty sequence (`nr_ants = 0`).
The constructor `noFeasibleMove` follows the spec's words: the spec
prescribes a dedicated `NoFeasibleMoveError` for degenerate
distributions; no such class exists anywhere in the source, and no
definition in this file ever produces this constructor -- it exists only
so that the spec's claimed behavior can be stated and compared with the
code's actual behavior. -/
inductive RunError where
  | choice (e : NpChoiceError) : RunError
  | noFeasibleMove : RunError
  | minOfEmpty : RunError
  deriving DecidableEq, Repr

instance {ε α : Type _} [DecidableEq ε] [DecidableEq α] :
    DecidableEq (Except ε α) := fun a b =>
  match a, b with
  | Except.error x, Except.error y =>
      if h : x = y then Decidable.isTrue (by subst h; rfl)
      else Decidable.isFalse (fun he => h (by cases he; rfl))
  | Except.error _, Except.ok _ => Decidable.isFalse (fun he => Except.noConfusion he)
  | Except.ok _, Except.error _ => Decidable.isFalse (fun he => Except.noConfusion he)
  | Except.ok x, Except.ok y =>
      if h : x = y then Decidable.isTrue (by subst h; rfl)
      else Decidable.isFalse (fun he => h (by cases he; rfl))

/-- Line 120, `pheromone[list(visited)] = 0` applied to the `np.copy`:
the pheromone row with every visited index zeroed. -/
def zeroVisited (pheromone : ℕ → F) (visited : Finset ℕ) : ℕ → F :=
  fun j => if j ∈ visited then F.fin 0 else pheromone j

/-- Line 121, `row = pheromone ** self.alpha * ((1.0 / dist) ** self.beta)`,
computed on the zeroed copy of the pheromone row. -/
def pickRow (c : AntColony) (pheromone dist : ℕ → F) (visited : Finset ℕ) : ℕ → F :=
  fun j =>
    F.mul (F.powN (zeroVisited pheromone visited j) c.alpha)
      (F.powN (F.div (F.fin 1) (dist j)) c.beta)

/-- The value `row.sum()` of line 122, over the `cols` entries of the row. -/
def pickRowSum (c : AntColony) (pheromone dist : ℕ → F) (visited : Finset ℕ) : F :=
  sumF ((List.range c.distances.cols).map (pickRow c pheromone dist visited))

/-- Line 122, `norm_row = row / row.sum()` (elementwise IEEE division, so
`0/0` entries are `nan`). -/
def normRow (c : AntColony) (pheromone dist : ℕ → F) (visited : Finset ℕ) : ℕ → F :=
  fun j => F.div (pickRow c pheromone dist visited j) (pickRowSum c pheromone dist visited)

/-- The argument validation of `np.random.choice(a, 1, p)`, in numpy's
order: `a` and `p` must have the same size, `p` must be nonnegative, its
sum must not be `nan`, and the sum must equal 1 (exact here, within
tolerance in numpy). `nA` is the population size `len(a)` and `nP` the
length of `p`. -/
def npChoiceCheck (p : ℕ → F) (nA nP : ℕ) : Option NpChoiceError :=
  if nA ≠ nP then some NpChoiceError.sizeMismatch
  else if (List.range nP).any (fun j => F.ltB (p j) (F.fin 0)) then
    some NpChoiceError.probsNotNonneg
  else if (sumF ((List.range nP).map p)).isNaN then
    some NpChoiceError.probsContainNaN
  else if sumF ((List.range nP).map p) ≠ F.fin 1 then
    some NpChoiceError.probsDontSumToOne
  else none

/-- `AntColony.pick_move` (lines 110-124).  `pheromone` and `dist` are the
rows of the two matrices at the current position; `oracle` is the random
draw (see the module docstring): after the `np.random.choice` validation
passes, the sampled index is the oracle's proposal when that proposal is a
possible sample (positive probability), and otherwise the first possible
sample -- which exists whenever validation passes, the fallback error
being unreachable. -/
def pick_move (c : AntColony) (pheromone dist : ℕ → F) (visited : Finset ℕ)
    (oracle : ℕ) : Except RunError ℕ :=
  match npChoiceCheck (normRow c pheromone dist visited) c.all_indexes.length
      c.distances.cols with
  | some e => Except.error (RunError.choice e)
  | none =>
      if oracle < c.all_indexes.length ∧
          F.ltB (F.fin 0) (normRow c pheromone dist visited oracle) then
        Except.ok oracle
      else
        match (List.range c.all_indexes.length).find?
            (fun j => F.ltB (F.fin 0) (normRow c pheromone dist visited j)) with
        | some j => Except.ok j
        | none => Except.error (RunError.choice NpChoiceError.probsDontSumToOne)

/-- The loop of `generate_path` (lines 99-107): `steps` iterations remain,
`prev` is the current node, `visited` the set built so far, and
`choices i` the oracle for loop index `i`.  Returns the list of moves made
by the loop together with the final position. -/
def genPathAux (c : AntColony) (choices : ℕ → ℕ) :
    ℕ → Finset ℕ → ℕ → ℕ → Except RunError (List (ℕ × ℕ) × ℕ)
  | prev, _, _, 0 => Except.ok ([], prev)
  | prev, visited, i, steps + 1 => do
      let m ← pick_move c (c.pheromone.entry prev) (c.distances.entry prev) visited
        (choices i)
      let r ← genPathAux c choices m (insert m visited) (i + 1) steps
      Except.ok ((prev, m) :: r.1, r.2)

/-- `AntColony.generate_path` (lines 93-108): `len(self.distances) - 1`
moves picked by `pick_move`, then the closing move back to `start`. -/
def generate_path (c : AntColony) (start : ℕ) (choices : ℕ → ℕ) :
    Except RunError (List (ℕ × ℕ)) := do
  let r ← genPathAux c choices start {start} 0 (c.distances.rows - 1)
  Except.ok (r.1 ++ [(r.2, start)])

/-- `AntColony.compute_path_distance` (lines 69-75): the sum of the
distance entries over the moves of a path. -/
def compute_path_distance (c : AntColony) (path : List (ℕ × ℕ)) : F :=
  sumF (path.map (fun mv => c.distances.entry mv.1 mv.2))

/-- `AntColony.generate_all_paths` (lines 77-91): one `generate_path(0)`
per ant (the pool map preserves order and propagates the first failing
ant's exception), each paired with its `compute_path_distance`. -/
def generate_all_paths (c : AntColony) (rand : ℕ → ℕ → ℕ) :
    Except RunError (List (List (ℕ × ℕ) × F)) := do
  let paths ← (List.range c.nr_ants).mapM (fun i => generate_path c 0 (rand i))
  Except.ok (paths.map (fun path => (path, compute_path_distance c path)))

/-- Stable insertion into a sorted list: the new element goes before the
first element it compares `le` to, hence after every earlier-inserted
element with an equal key. -/
def insertSorted (le : α → α → Bool) (a : α) : List α → List α
  | [] => [a]
  | b :: l => if le a b then a :: b :: l else b :: insertSorted le a l

/-- A stable ascending sort, modelling Python's `sorted`: Python's timsort
is stable, and on totally preordered keys every stable ascending sort
computes the same list. -/
def sortedPy (le : α → α → Bool) (l : List α) : List α :=
  l.foldr (insertSorted le) []

/-- The comparison `sorted(all_paths, key=lambda x: x[1])` sorts by: `a`
may stay before `b` iff `not (b[1] < a[1])` under IEEE `<`. -/
def pathLe (a b : α × F) : Bool := !(F.ltB b.2 a.2)

/-- Line 66, one execution of
`self.pheromone[move] += 1.0 / self.distances[move]`. -/
def reinforceMove (ph dm : Mat) (mv : ℕ × ℕ) : Mat :=
  { ph with
    entry := fun i j =>
      if i = mv.1 ∧ j = mv.2 then
        F.add (ph.entry i j) (F.div (F.fin 1) (dm.entry mv.1 mv.2))
      else ph.entry i j }

/-- Line 67, `np.clip(self.pheromone, self.phero_min, self.phero_max)`. -/
def clipMat (m : Mat) (lo hi : ℚ) : Mat :=
  { m with entry := fun i j => F.clip (m.entry i j) (F.fin lo) (F.fin hi) }

/-- `AntColony.update_pheromone` (lines 54-67).  Line 62 is the statement
`self.pheromone * self.decay`: it computes the decayed matrix and discards
it (no assignment), embedded as the unused let-binding.  Then the paths
are sorted ascending by length, the moves of the first `nr_best` paths
each add `1.0 / distances[move]` to their pheromone entry, and the whole
matrix is clipped to `[phero_min, phero_max]`. -/
def update_pheromone (c : AntColony) (all_paths : List (List (ℕ × ℕ) × F)) :
    AntColony :=
  let _discarded : Mat :=
    { c.pheromone with
      entry := fun i j => F.mul (c.pheromone.entry i j) (F.fin c.decay) }
  let sorted_paths := sortedPy pathLe all_paths
  let reinforced :=
    (sorted_paths.take c.nr_best).foldl
      (fun m p => p.1.foldl (fun m2 mv => reinforceMove m2 c.distances mv) m)
      c.pheromone
  { c with pheromone := clipMat reinforced c.phero_min c.phero_max }

/-- Python's `min(h :: t, key=lambda x: x[1])`: fold keeping the current
minimum, replacing it only on a strictly smaller key, so the first
minimizer wins. -/
def pyMin (h : α × F) (t : List (α × F)) : α × F :=
  t.foldl (fun best x => if F.ltB x.2 best.2 then x else best) h

/-- The first component of `all_time_shortest_path`: the literal string
`"placeholder"` it is initialized with, or an actual path. -/
inductive BestT where
  | placeholder : BestT
  | tour (p : List (ℕ × ℕ)) : BestT
  deriving DecidableEq, Repr

/-- The loop of `AntColony.run` (lines 43-52) after `k` iterations:
the colony state (its pheromone field evolves), the running
`all_time_shortest_path` pair (initialized to `("placeholder", np.inf)`),
and the trace of every iteration's `all_paths` list.  Each iteration
generates all paths from the current state, updates the pheromone, takes
`min(all_paths, key=lambda x: x[1])` (raising on an empty list, as Python
`min` does when `nr_ants = 0`), and replaces the running best only when
the iteration's shortest is strictly shorter. -/
def runAux (c : AntColony) (rand : ℕ → ℕ → ℕ → ℕ) :
    ℕ → Except RunError (AntColony × (BestT × F) × List (List (List (ℕ × ℕ) × F)))
  | 0 => Except.ok (c, (BestT.placeholder, F.inf), [])
  | k + 1 => do
      let r ← runAux c rand k
      let all_paths ← generate_all_paths r.1 (rand k)
      let c2 := update_pheromone r.1 all_paths
      match all_paths with
      | [] => Except.error RunError.minOfEmpty
      | h :: t =>
          let shortest := pyMin h t
          let best :=
            if F.ltB shortest.2 r.2.1.2 then (BestT.tour shortest.1, shortest.2)
            else r.2.1
          Except.ok (c2, best, r.2.2 ++ [all_paths])

/-- `AntColony.run` (lines 37-52): `nr_iterations` iterations of the loop,
returning the final `all_time_shortest_path` pair. -/
def run (c : AntColony) (rand : ℕ → ℕ → ℕ → ℕ) : Except RunError (BestT × F) :=
  (runAux c rand c.nr_iterations).map (fun r => r.2.1)

/-- A 1-by-2 matrix with a negative entry: simultaneously non-square, of
size below 2, and containing a negative finite value. -/
def matBad : Mat := { rows := 1, cols := 2, entry := fun _ _ => F.fin (-1) }

/-- A 2-by-2 matrix all of whose distances are `1/2`, so each
reinforcement adds `2.0` to a pheromone entry and overflows `phero_max`. -/
def matHalf : Mat := { rows := 2, cols := 2, entry := fun _ _ => F.fin (1/2) }

/-- A colony over `matHalf` with default pheromone bounds `[0, 1]`. -/
def colonyHalf : AntColony := mkAntColony matHalf 1 1 1 (1/2) 1 1

/-- A 2-by-2 matrix all of whose distances are `1`. -/
def matOnes : Mat := { rows := 2, cols := 2, entry := fun _ _ => F.fin 1 }

/-- A colony over `matOnes` with `alpha = 0` and `beta = 0`: with numpy's
`0.0 ** 0.0 = 1.0`, zeroed pheromone weights still score `1`, so visited
nodes keep positive probability. -/
def colonyAlpha0 : AntColony := mkAntColony matOnes 1 1 1 (1/2) 0 0

/-- A colony over `matOnes` with `alpha = 1` and `beta = 1`. -/
def colonyAlpha1 : AntColony := mkAntColony matOnes 1 1 1 (1/2) 1 1

/-- A 2-by-2 matrix whose only way out of node 0 is the forbidden edge
`distance(0,1) = +inf`: from the start every candidate scores zero. -/
def matStuck : Mat :=
  { rows := 2, cols := 2
    entry := fun i j => if i = 0 ∧ j = 1 then F.inf else F.fin 1 }

/-- A colony over `matStuck`, one ant, one iteration. -/
def colonyStuck : AntColony := mkAntColony matStuck 1 1 1 (1/2) 1 1

/-- Two concrete path-length pairs, one of infinite length, for
exercising the pheromone update. -/
def samplePaths : List (List (ℕ × ℕ) × F) :=
  [([(0, 1), (1, 0)], F.fin 2), ([(0, 0), (0, 0)], F.inf)]

/-- The binary minimum the `run` loop implements: the challenger `x`
replaces the incumbent `b` only when strictly smaller under IEEE `<`. -/
def minF (b x : F) : F := if F.ltB x b then x else b

/-- All tour lengths of a run trace, in generation order. -/
def traceLengths (tr : List (List (List (ℕ × ℕ) × F))) : List F :=
  (tr.map (fun it => it.map Prod.snd)).flatten

/-- A 2-by-2 matrix where the only finite edge is `distance(0,1) = 1`:
the tour `[(0,1),(1,0)]` is constructible (node 1 scores positively) but
closes over the `+inf` edge `(1,0)`, so its length is `+inf`. -/
def matInfLen : Mat :=
  { rows := 2, cols := 2
    entry := fun i j => if i = 0 ∧ j = 1 then F.fin 1 else F.inf }

/-- A colony over `matInfLen`, one ant, one iteration: every generated
tour has length `+inf`. -/
def colonyInfLen : AntColony := mkAntColony matInfLen 1 1 1 (1/2) 1 1

/-- The spec's unnormalized desirability score (spec 4.3, steps 2-3),
written from the spec's words for comparison with the code's `pickRow`:
the pheromone weight of an already-visited node is zeroed, and every node
is scored `pheromone[node] ^ alpha * (1 / distance[node]) ^ beta`. -/
def specDesirability (c : AntColony) (pheromone dist : ℕ → F)
    (visited : Finset ℕ) (node : ℕ) : F :=
  F.mul (F.powN (if node ∈ visited then F.fin 0 else pheromone node) c.alpha)
    (F.powN (F.div (F.fin 1) (dist node)) c.beta)

/-- The spec's categorical distribution (spec 4.3, step 4), written from
the spec's words: each of the `N` nodes gets probability equal to its
desirability score divided by the sum of all scores. -/
def specCategorical (c : AntColony) (pheromone dist : ℕ → F)
    (visited : Finset ℕ) (node : ℕ) : F :=
  F.div (specDesirability c pheromone dist visited node)
    (sumF ((List.range c.distances.rows).map (specDesirability c pheromone dist visited)))

/-! ## Theorems -/

theorem F.isReal_add {a b : F} (ha : a.IsReal) (hb : b.IsReal) :
    (F.add a b).IsReal := by
  rcases ha with ha | ⟨q, ha⟩ <;> rcases hb with hb | ⟨r, hb⟩ <;>
    subst ha <;> subst hb <;> simp [F.add, F.IsReal]

theorem F.isReal_one_div {b : F} (hb : b ≠ F.nan) :
    (F.div (F.fin 1) b).IsReal := by
  cases b with
  | nan => exact absurd rfl hb
  | ninf => simp [F.div, F.IsReal]
  | inf => simp [F.div, F.IsReal]
  | fin r =>
      by_cases hr : r = 0 <;> simp [F.div, hr, F.IsReal]

theorem F.isReal_ne_nan {a : F} (ha : a.IsReal) : a ≠ F.nan := by
  rcases ha with ha | ⟨q, ha⟩ <;> subst ha <;> simp

/-- Entries clipped to `[lo, hi]` with `lo ≤ hi` land inside the interval,
for every non-`nan` input (values above `hi` or `+inf` come back as `hi`,
values below `lo` or `-inf` as `lo`). -/
theorem F.clip_mem {x : F} {lo hi : ℚ} (hlh : lo ≤ hi) (hx : x ≠ F.nan) :
    F.leB (F.fin lo) (F.clip x (F.fin lo) (F.fin hi)) = true ∧
      F.leB (F.clip x (F.fin lo) (F.fin hi)) (F.fin hi) = true := by
  cases x with
  | nan => exact absurd rfl hx
  | ninf =>
      simp [F.clip, F.maxN, F.minN, F.ltB, F.leB, hlh, not_lt.mpr hlh]
  | inf =>
      simp [F.clip, F.maxN, F.minN, F.ltB, F.leB, hlh]
  | fin q =>
      simp only [F.clip, F.maxN, F.minN, F.ltB, F.leB]
      split_ifs <;> simp_all

/-- Each single reinforcement step keeps every pheromone entry an actual
extended real (no `nan`), as long as no distance entry is `nan`. -/
theorem reinforceMove_isReal {ph dm : Mat}
    (hph : ∀ i j, (ph.entry i j).IsReal)
    (hd : ∀ i j, dm.entry i j ≠ F.nan) (mv : ℕ × ℕ) :
    ∀ i j, ((reinforceMove ph dm mv).entry i j).IsReal := by
  intro i j
  simp only [reinforceMove]
  split
  · exact F.isReal_add (hph i j) (F.isReal_one_div (hd mv.1 mv.2))
  · exact hph i j

theorem reinforce_foldl_moves_isReal {dm : Mat}
    (hd : ∀ i j, dm.entry i j ≠ F.nan) (moves : List (ℕ × ℕ)) :
    ∀ ph : Mat, (∀ i j, (ph.entry i j).IsReal) →
      ∀ i j, ((moves.foldl (fun m2 mv => reinforceMove m2 dm mv) ph).entry i j).IsReal := by
  induction moves with
  | nil => intro ph hph i j; exact hph i j
  | cons mv moves ih =>
      intro ph hph i j
      exact ih (reinforceMove ph dm mv) (reinforceMove_isReal hph hd mv) i j

theorem reinforce_foldl_paths_isReal {dm : Mat}
    (hd : ∀ i j, dm.entry i j ≠ F.nan) (paths : List (List (ℕ × ℕ) × F)) :
    ∀ ph : Mat, (∀ i j, (ph.entry i j).IsReal) →
      ∀ i j,
        ((paths.foldl
            (fun m p => p.1.foldl (fun m2 mv => reinforceMove m2 dm mv) m)
            ph).entry i j).IsReal := by
  induction paths with
  | nil => intro ph hph i j; exact hph i j
  | cons p paths ih =>
      intro ph hph i j
      exact ih _ (reinforce_foldl_moves_isReal hd p.1 ph hph) i j

/-- C3: after every call to `update_pheromone`, every entry of the
pheromone matrix lies within `[phero_min, phero_max]` inclusive, for every
list of input paths -- including paths whose reinforcement would push an
entry above `phero_max` (the final `np.clip` pulls it back) -- for any
colony with `phero_min ≤ phero_max`, pheromone entries that are actual
extended reals, and no `nan` distance entry. -/
theorem C3_pheromone_within_bounds (c : AntColony)
    (all_paths : List (List (ℕ × ℕ) × F))
    (hlh : c.phero_min ≤ c.phero_max)
    (hph : ∀ i j, (c.pheromone.entry i j).IsReal)
    (hd : ∀ i j, c.distances.entry i j ≠ F.nan) :
    ∀ i j,
      F.leB (F.fin c.phero_min)
          ((update_pheromone c all_paths).pheromone.entry i j) = true ∧
        F.leB ((update_pheromone c all_paths).pheromone.entry i j)
          (F.fin c.phero_max) = true := by
  intro i j
  have hreal :=
    reinforce_foldl_paths_isReal hd
      ((sortedPy pathLe all_paths).take c.nr_best) c.pheromone hph i j
  exact F.clip_mem hlh (F.isReal_ne_nan hreal)

/-- C3, witness: on a concrete colony with bounds `[0, 1]` and a path
whose reinforcement adds `2.0` to entry `(0,1)` (pushing it to `5/2`
before clipping), the updated entry `(0,1)` still lies within the
bounds. -/
theorem C3_pheromone_within_bounds_witness :
    F.leB (F.fin colonyHalf.phero_min)
        ((update_pheromone colonyHalf [([(0, 1)], F.fin (1/2))]).pheromone.entry 0 1) = true ∧
      F.leB ((update_pheromone colonyHalf [([(0, 1)], F.fin (1/2))]).pheromone.entry 0 1)
        (F.fin colonyHalf.phero_max) = true :=
  C3_pheromone_within_bounds colonyHalf [([(0, 1)], F.fin (1/2))]
    (by decide)
    (fun _ _ => by
      show (F.div (F.fin 1) (F.fin (matHalf.rows : ℚ))).IsReal
      exact F.isReal_one_div (by simp))
    (fun _ _ => by
      show F.fin (1/2) ≠ F.nan
      simp) 0 1

/-- C4: `pick_move` samples the next node from the categorical
distribution obtained by zeroing the pheromone weight of every visited
node, scoring each node as `pheromone[node]^alpha * (1/distance[node])^beta`,
and dividing by the sum of scores.  Part one: the probability vector the
code hands to `np.random.choice` is exactly the spec's categorical
distribution.  Part two: the possible outcomes of a successful call are
exactly the nodes of positive probability under that distribution --
a random weighted choice over every positive-score candidate, not a
greedy argmax.  (For a colony whose matrix is square and whose
`all_indexes` has the `N` elements `__init__` gives it.) -/
theorem C4_pick_move_is_categorical_choice (c : AntColony)
    (pheromone dist : ℕ → F) (visited : Finset ℕ)
    (hsq : c.distances.cols = c.distances.rows)
    (hlen : c.all_indexes.length = c.distances.rows) :
    (∀ node, normRow c pheromone dist visited node =
      specCategorical c pheromone dist visited node) ∧
    (∀ m, (∃ oracle, pick_move c pheromone dist visited oracle = Except.ok m) ↔
      (npChoiceCheck (normRow c pheromone dist visited) c.all_indexes.length
          c.distances.cols = none ∧
        m < c.distances.rows ∧
        F.ltB (F.fin 0) (specCategorical c pheromone dist visited m) = true)) := by
  have hrow : pickRow c pheromone dist visited =
      specDesirability c pheromone dist visited := rfl
  have hnorm : ∀ node, normRow c pheromone dist visited node =
      specCategorical c pheromone dist visited node := by
    intro node
    unfold normRow specCategorical pickRowSum
    rw [hrow, hsq]
  refine ⟨hnorm, fun m => ?_⟩
  constructor
  · rintro ⟨oracle, hok⟩
    unfold pick_move at hok
    rcases hcheck : npChoiceCheck (normRow c pheromone dist visited)
        c.all_indexes.length c.distances.cols with _ | e
    case _ =>
      rw [hcheck] at hok
      simp only at hok
      split at hok
      · rename_i hcond
        obtain ⟨hlt, hpos⟩ := hcond
        cases hok
        refine ⟨rfl, by omega, ?_⟩
        rw [← hnorm]; exact hpos
      · split at hok
        · rename_i j hfind
          cases hok
          have hmem := List.mem_of_find?_eq_some hfind
          have hpos := List.find?_some hfind
          rw [List.mem_range] at hmem
          refine ⟨rfl, by omega, ?_⟩
          rw [← hnorm]; exact hpos
        · cases hok
    case _ =>
      rw [hcheck] at hok
      cases hok
  · rintro ⟨hcheck, hm, hpos⟩
    refine ⟨m, ?_⟩
    unfold pick_move
    rw [hcheck]
    simp only
    rw [if_pos ⟨by omega, by rw [hnorm]; exact hpos⟩]

/-- C4, witness: on the concrete colony `colonyHalf` with node 0 visited,
the characterization applies: the code's normalized row is the spec's
distribution, and node 1 (probability 1) is a possible outcome. -/
theorem C4_pick_move_is_categorical_choice_witness :
    (∀ node,
      normRow colonyHalf (colonyHalf.pheromone.entry 0)
          (colonyHalf.distances.entry 0) {0} node =
        specCategorical colonyHalf (colonyHalf.pheromone.entry 0)
          (colonyHalf.distances.entry 0) {0} node) ∧
    (∀ m,
      (∃ oracle,
        pick_move colonyHalf (colonyHalf.pheromone.entry 0)
            (colonyHalf.distances.entry 0) {0} oracle = Except.ok m) ↔
      (npChoiceCheck
            (normRow colonyHalf (colonyHalf.pheromone.entry 0)
              (colonyHalf.distances.entry 0) {0})
            colonyHalf.all_indexes.length colonyHalf.distances.cols = none ∧
        m < colonyHalf.distances.rows ∧
        F.ltB (F.fin 0)
            (specCategorical colonyHalf (colonyHalf.pheromone.entry 0)
              (colonyHalf.distances.entry 0) {0} m) = true)) :=
  C4_pick_move_is_categorical_choice colonyHalf (colonyHalf.pheromone.entry 0)
    (colonyHalf.distances.entry 0) {0} (by decide) (by decide)

/-- C2: the result of `update_pheromone` does not depend on the `decay`
parameter.  For any two colony states identical except for the value of
`decay` and any list of paths, `update_pheromone` yields identical
pheromone matrices: the evaporation step of line 62 computes
`self.pheromone * self.decay` but never assigns it back, so evaporation
has no observable effect. -/
theorem C2_decay_has_no_effect (c : AntColony) (d : ℚ)
    (all_paths : List (List (ℕ × ℕ) × F)) :
    (update_pheromone { c with decay := d } all_paths).pheromone =
      (update_pheromone c all_paths).pheromone := rfl

/-- C8, counterexample: constructing the colony with a distance matrix
that is non-square (1 row, 2 columns), of size below 2, and containing a
negative finite value raises nothing: `__init__` performs no validation,
and construction succeeds, returning the fully initialized state. -/
theorem C8_cex_construction_accepts_bad_matrix :
    (matBad.rows ≠ matBad.cols ∧ matBad.rows < 2 ∧
      matBad.entry 0 0 = F.fin (-1)) ∧
    mkAntColony matBad 2 1 3 (1/2) 1 1 =
      { distances := matBad
        pheromone :=
          { rows := 1, cols := 2
            entry := fun _ _ => F.div (F.fin 1) (F.fin 1) }
        all_indexes := [0]
        nr_ants := 2
        nr_best := 1
        nr_iterations := 3
        decay := 1/2
        alpha := 1
        beta := 1
        phero_min := 0
        phero_max := 1
        nprocs := 1 } := by
  refine ⟨by decide, ?_⟩
  unfold mkAntColony matBad
  rfl

/-- C8, amended: construction performs no matrix validation at all.  For
every distance matrix -- non-square, negative, or of size below 2
included -- `__init__` succeeds, stores the matrix unchanged, and
initializes the pheromone matrix of the same shape uniformly to
`1 / len(distance_matrix)`; no `InvalidMatrixError` exists in the code. -/
theorem C8_construction_never_validates_matrix (dm : Mat)
    (nr_ants nr_best nr_iterations : ℕ) (decay : ℚ) (alpha beta : ℕ)
    (phero_min phero_max : ℚ) (nr_procs : ℕ) :
    (mkAntColony dm nr_ants nr_best nr_iterations decay alpha beta
        phero_min phero_max nr_procs).distances = dm ∧
    (mkAntColony dm nr_ants nr_best nr_iterations decay alpha beta
        phero_min phero_max nr_procs).pheromone =
      { rows := dm.rows, cols := dm.cols
        entry := fun _ _ => F.div (F.fin 1) (F.fin dm.rows) } :=
  ⟨rfl, rfl⟩

/-- C9, counterexample: constructing with `nr_best > nr_ants` (`5 > 2`),
`decay = 2` outside `(0,1)`, and `phero_max = 0 ≤ 1 = phero_min` -- all
three violations at once -- raises nothing: `__init__` performs no
parameter validation, and every parameter is stored as given. -/
theorem C9_cex_construction_accepts_bad_parameters :
    (mkAntColony matBad 2 5 3 2 1 1 1 0 1).nr_ants = 2 ∧
    (mkAntColony matBad 2 5 3 2 1 1 1 0 1).nr_best = 5 ∧
    (mkAntColony matBad 2 5 3 2 1 1 1 0 1).decay = 2 ∧
    (mkAntColony matBad 2 5 3 2 1 1 1 0 1).phero_min = 1 ∧
    (mkAntColony matBad 2 5 3 2 1 1 1 0 1).phero_max = 0 :=
  ⟨rfl, rfl, rfl, rfl, rfl⟩

/-- C9, amended: construction performs no parameter validation.  Whatever
the values of `nr_best` relative to `nr_ants`, of `decay`, and of
`phero_min` relative to `phero_max`, `__init__` succeeds and stores each
parameter unchanged (only `nr_procs` is adjusted, to `max(nr_procs, 1)`);
no `InvalidParameterError` exists in the code. -/
theorem C9_construction_never_validates_parameters (dm : Mat)
    (nr_ants nr_best nr_iterations : ℕ) (decay : ℚ) (alpha beta : ℕ)
    (phero_min phero_max : ℚ) (nr_procs : ℕ) :
    (mkAntColony dm nr_ants nr_best nr_iterations decay alpha beta
        phero_min phero_max nr_procs).nr_ants = nr_ants ∧
    (mkAntColony dm nr_ants nr_best nr_iterations decay alpha beta
        phero_min phero_max nr_procs).nr_best = nr_best ∧
    (mkAntColony dm nr_ants nr_best nr_iterations decay alpha beta
        phero_min phero_max nr_procs).decay = decay ∧
    (mkAntColony dm nr_ants nr_best nr_iterations decay alpha beta
        phero_min phero_max nr_procs).phero_min = phero_min ∧
    (mkAntColony dm nr_ants nr_best nr_iterations decay alpha beta
        phero_min phero_max nr_procs).phero_max = phero_max ∧
    (mkAntColony dm nr_ants nr_best nr_iterations decay alpha beta
        phero_min phero_max nr_procs).nprocs = max nr_procs 1 :=
  ⟨rfl, rfl, rfl, rfl, rfl, rfl⟩

theorem F.powN_fin (q : ℚ) (n : ℕ) : F.powN (F.fin q) n = F.fin (q ^ n) := by
  induction n with
  | zero => simp [F.powN]
  | succ n ih => rw [F.powN, ih, pow_succ]; simp [F.mul, mul_comm]

/-- With `alpha ≥ 1` a zeroed pheromone weight scores `0 ^ alpha = 0`. -/
theorem F.powN_zero_base {a : ℕ} (ha : 1 ≤ a) :
    F.powN (F.fin 0) a = F.fin 0 := by
  rw [F.powN_fin, zero_pow (by omega)]

theorem F.mul_zero_left (x : F) :
    F.mul (F.fin 0) x = F.fin 0 ∨ F.mul (F.fin 0) x = F.nan := by
  cases x <;> simp [F.mul]

theorem F.div_of_zero_or_nan {a : F} (ha : a = F.fin 0 ∨ a = F.nan) (s : F) :
    F.div a s = F.fin 0 ∨ F.div a s = F.nan := by
  rcases ha with ha | ha <;> subst ha <;> cases s <;> simp [F.div]
  tauto

theorem F.ltB_zero_of_zero_or_nan {a : F} (ha : a = F.fin 0 ∨ a = F.nan) :
    F.ltB (F.fin 0) a = false := by
  rcases ha with ha | ha <;> subst ha <;> simp [F.ltB]

/-- A successful `pick_move` returns an index below `len(all_indexes)`
whose normalized probability is strictly positive. -/
theorem pick_move_ok_pos {c : AntColony} {pheromone dist : ℕ → F}
    {visited : Finset ℕ} {oracle m : ℕ}
    (h : pick_move c pheromone dist visited oracle = Except.ok m) :
    m < c.all_indexes.length ∧
      F.ltB (F.fin 0) (normRow c pheromone dist visited m) = true := by
  unfold pick_move at h
  split at h
  · cases h
  · split at h
    · rename_i hcond
      cases h
      exact hcond
    · split at h
      · rename_i j hfind
        cases h
        have hmem := List.mem_of_find?_eq_some hfind
        rw [List.mem_range] at hmem
        exact ⟨hmem, by simpa using List.find?_some hfind⟩
      · cases h

/-- With `alpha ≥ 1`, a successful `pick_move` never returns a visited
node: its zeroed pheromone makes its score `0` (or `nan`), hence its
normalized probability is never positive. -/
theorem pick_move_ok_not_visited {c : AntColony} {pheromone dist : ℕ → F}
    {visited : Finset ℕ} {oracle m : ℕ} (halpha : 1 ≤ c.alpha)
    (h : pick_move c pheromone dist visited oracle = Except.ok m) :
    m ∉ visited := by
  intro hmem
  have hpos := (pick_move_ok_pos h).2
  have hrow : pickRow c pheromone dist visited m = F.fin 0 ∨
      pickRow c pheromone dist visited m = F.nan := by
    unfold pickRow zeroVisited
    rw [if_pos hmem, F.powN_zero_base halpha]
    exact F.mul_zero_left _
  have hnorm : normRow c pheromone dist visited m = F.fin 0 ∨
      normRow c pheromone dist visited m = F.nan :=
    F.div_of_zero_or_nan hrow _
  rw [F.ltB_zero_of_zero_or_nan hnorm] at hpos
  cases hpos

/-- The invariant of the `generate_path` loop: a successful run of
`steps` iterations produces `steps` moves that chain from `prev` to the
final position, visiting pairwise-distinct fresh in-range nodes. -/
theorem genPathAux_spec {c : AntColony} {choices : ℕ → ℕ}
    (halpha : 1 ≤ c.alpha) :
    ∀ (steps prev : ℕ) (visited : Finset ℕ) (i : ℕ)
      (moves : List (ℕ × ℕ)) (last : ℕ),
      genPathAux c choices prev visited i steps = Except.ok (moves, last) →
      moves.length = steps ∧
      prev :: moves.map Prod.snd = moves.map Prod.fst ++ [last] ∧
      (moves.map Prod.snd).Nodup ∧
      (∀ x ∈ moves.map Prod.snd, x ∉ visited ∧ x < c.all_indexes.length) := by
  intro steps
  induction steps with
  | zero =>
      intro prev visited i moves last h
      unfold genPathAux at h
      cases h
      simp
  | succ steps ih =>
      intro prev visited i moves last h
      unfold genPathAux at h
      rcases hpick : pick_move c (c.pheromone.entry prev) (c.distances.entry prev)
          visited (choices i) with e | m'
      · rw [hpick] at h; cases h
      · rw [hpick] at h
        simp only [bind, Except.bind] at h
        rcases hrec : genPathAux c choices m' (insert m' visited) (i + 1) steps
          with e | r
        · rw [hrec] at h; cases h
        · rw [hrec] at h
          simp only at h
          cases h
          obtain ⟨hlen, hchain, hnodup, hfresh⟩ :=
            ih m' (insert m' visited) (i + 1) r.1 r.2 hrec
          have hm'fresh : m' ∉ visited := pick_move_ok_not_visited halpha hpick
          have hm'lt : m' < c.all_indexes.length := (pick_move_ok_pos hpick).1
          refine ⟨by simp [hlen], ?_, ?_, ?_⟩
          · simp only [List.map_cons, List.cons_append]
            exact congrArg (prev :: ·) hchain
          · simp only [List.map_cons, List.nodup_cons]
            refine ⟨fun hx => ?_, hnodup⟩
            exact (hfresh m' hx).1 (Finset.mem_insert_self m' visited)
          · intro x hx
            simp only [List.map_cons, List.mem_cons] at hx
            rcases hx with hx | hx
            · subst hx; exact ⟨hm'fresh, hm'lt⟩
            · obtain ⟨hni, hlt⟩ := hfresh x hx
              exact ⟨fun hv => hni (Finset.mem_insert_of_mem hv), hlt⟩

/-- C1, amended (`alpha > 0` in place of the claim's `alpha ≥ 0`; the
counterexample `C1_cex_alpha_zero_revisits` shows the original fails at
`alpha = 0`, where numpy's `0.0 ** 0.0 = 1.0` lets visited nodes keep
positive probability): for a valid construction (square `N x N` matrix,
`N ≥ 2`, `alpha ≥ 1`) and every successful call to `generate_path(start)`
with `start` in range, the returned path is a list of exactly `N` moves
that starts at `start`, ends with a move back to `start`, is consecutive
(each move begins where the previous one ended, encoded by the rotation
equation on the endpoint lists), and whose visited nodes are exactly the
`N` nodes, each visited exactly once. -/
theorem C1_generate_path_hamiltonian_cycle (c : AntColony) (start : ℕ)
    (choices : ℕ → ℕ) (path : List (ℕ × ℕ))
    (_hsq : c.distances.cols = c.distances.rows)
    (hn : 2 ≤ c.distances.rows)
    (halpha : 1 ≤ c.alpha)
    (hlen : c.all_indexes.length = c.distances.rows)
    (hstart : start < c.distances.rows)
    (hok : generate_path c start choices = Except.ok path) :
    path.length = c.distances.rows ∧
    (path.map Prod.fst).head? = some start ∧
    (path.map Prod.snd).getLast? = some start ∧
    path.map Prod.snd = (path.map Prod.fst).tail ++ [start] ∧
    (path.map Prod.fst).Nodup ∧
    (path.map Prod.fst).toFinset = Finset.range c.distances.rows := by
  unfold generate_path at hok
  rcases haux : genPathAux c choices start {start} 0 (c.distances.rows - 1)
    with e | r
  · rw [haux] at hok; cases hok
  · rw [haux] at hok
    simp only [bind, Except.bind] at hok
    cases hok
    obtain ⟨hlen1, hchain, hnodup, hfresh⟩ :=
      genPathAux_spec halpha (c.distances.rows - 1) start {start} 0 r.1 r.2 haux
    have hfst : (r.1 ++ [(r.2, start)]).map Prod.fst =
        start :: r.1.map Prod.snd := by
      rw [List.map_append]
      exact hchain.symm
    have hsnd : (r.1 ++ [(r.2, start)]).map Prod.snd =
        r.1.map Prod.snd ++ [start] := by
      rw [List.map_append]; rfl
    have hstartfresh : start ∉ r.1.map Prod.snd := by
      intro hx
      exact (hfresh start hx).1 (Finset.mem_singleton_self start)
    have hnodup2 : ((r.1 ++ [(r.2, start)]).map Prod.fst).Nodup := by
      rw [hfst, List.nodup_cons]
      exact ⟨hstartfresh, hnodup⟩
    refine ⟨?_, ?_, ?_, ?_, hnodup2, ?_⟩
    · rw [List.length_append, hlen1]
      simp; omega
    · rw [hfst]; rfl
    · rw [hsnd, List.getLast?_concat]
    · rw [hsnd, hfst]; rfl
    · have hsub : ((r.1 ++ [(r.2, start)]).map Prod.fst).toFinset ⊆
          Finset.range c.distances.rows := by
        intro x hx
        rw [List.mem_toFinset, hfst, List.mem_cons] at hx
        rw [Finset.mem_range]
        rcases hx with hx | hx
        · omega
        · have := (hfresh x hx).2; omega
      refine Finset.eq_of_subset_of_card_le hsub ?_
      rw [Finset.card_range,
        List.toFinset_card_of_nodup hnodup2, List.length_map,
        List.length_append, hlen1]
      simp; omega

/-- C1, counterexample: on a valid construction in the claim's sense --
square 2-by-2 distance matrix of ones, `N = 2`, `alpha = 0 ≥ 0`,
`beta = 0 ≥ 0` -- the call `generate_path(0)` can succeed returning
`[(0,0), (0,0)]`: numpy evaluates the zeroed pheromone of the visited
node 0 as `0.0 ** 0.0 = 1.0`, so node 0 keeps positive probability, is
re-picked, and the returned path visits node 0 twice and node 1 never --
not a Hamiltonian cycle. -/
theorem C1_cex_alpha_zero_revisits :
    (colonyAlpha0.distances.cols = colonyAlpha0.distances.rows ∧
      colonyAlpha0.distances.rows = 2 ∧
      colonyAlpha0.alpha = 0 ∧ colonyAlpha0.beta = 0) ∧
    generate_path colonyAlpha0 0 (fun _ => 0) = Except.ok [(0, 0), (0, 0)] ∧
    ¬ (([(0, 0), (0, 0)] : List (ℕ × ℕ)).map Prod.fst).Nodup ∧
    ¬ ((([(0, 0), (0, 0)] : List (ℕ × ℕ)).map Prod.fst).toFinset =
        Finset.range 2) := by
  refine ⟨by decide, ?_, by decide, by decide⟩
  rfl'

/-- C1, witness: the amended theorem applied to the concrete colony
`colonyAlpha1` (square 2-by-2 matrix of ones, `alpha = 1`), where
`generate_path(0)` succeeds with the Hamiltonian cycle `[(0,1), (1,0)]`. -/
theorem C1_generate_path_hamiltonian_cycle_witness :
    ([(0, 1), (1, 0)] : List (ℕ × ℕ)).length = colonyAlpha1.distances.rows ∧
    (([(0, 1), (1, 0)] : List (ℕ × ℕ)).map Prod.fst).head? = some 0 ∧
    (([(0, 1), (1, 0)] : List (ℕ × ℕ)).map Prod.snd).getLast? = some 0 ∧
    ([(0, 1), (1, 0)] : List (ℕ × ℕ)).map Prod.snd =
      (([(0, 1), (1, 0)] : List (ℕ × ℕ)).map Prod.fst).tail ++ [0] ∧
    (([(0, 1), (1, 0)] : List (ℕ × ℕ)).map Prod.fst).Nodup ∧
    (([(0, 1), (1, 0)] : List (ℕ × ℕ)).map Prod.fst).toFinset =
      Finset.range colonyAlpha1.distances.rows :=
  C1_generate_path_hamiltonian_cycle colonyAlpha1 0 (fun _ => 0)
    [(0, 1), (1, 0)] (by decide) (by decide) (by decide) (by decide)
    (by decide) (by rfl')

theorem F.add_zero_zero : F.add (F.fin 0) (F.fin 0) = F.fin 0 := by
  simp [F.add]

theorem sumF_all_zero :
    ∀ l : List F, (∀ x ∈ l, x = F.fin 0) → sumF l = F.fin 0 := by
  intro l
  induction l with
  | nil => intro _; rfl
  | cons x l ih =>
      intro h
      have hx := h x (List.mem_cons_self x l)
      subst hx
      unfold sumF at ih ⊢
      rw [List.foldl_cons, F.add_zero_zero]
      exact ih (fun y hy => h y (List.mem_cons_of_mem _ hy))

theorem F.foldl_add_nan : ∀ l : List F, l.foldl F.add F.nan = F.nan := by
  intro l
  induction l with
  | nil => rfl
  | cons x l ih =>
      rw [List.foldl_cons]
      have hn : F.add F.nan x = F.nan := by cases x <;> rfl
      rw [hn]
      exact ih

theorem F.foldl_add_of_nan_mem :
    ∀ (l : List F) (acc : F), F.nan ∈ l → l.foldl F.add acc = F.nan := by
  intro l
  induction l with
  | nil => intro acc h; cases h
  | cons x l ih =>
      intro acc h
      rw [List.foldl_cons]
      rcases List.mem_cons.mp h with hx | hx
      · subst hx
        have hn : F.add acc F.nan = F.nan := by cases acc <;> rfl
        rw [hn]
        exact F.foldl_add_nan l
      · exact ih _ hx

theorem sumF_nan_of_mem {l : List F} (h : F.nan ∈ l) : sumF l = F.nan :=
  F.foldl_add_of_nan_mem l (F.fin 0) h

/-- If every iteration up to `k` succeeded and iteration `k`'s path
generation raises, the whole of `run` raises that same error: nothing in
the loop catches it. -/
theorem runAux_error_propagates {c : AntColony} {rand : ℕ → ℕ → ℕ → ℕ}
    {k : ℕ} {r : AntColony × (BestT × F) × List (List (List (ℕ × ℕ) × F))}
    {e : RunError}
    (hk : runAux c rand k = Except.ok r)
    (he : generate_all_paths r.1 (rand k) = Except.error e) :
    ∀ n, k < n → runAux c rand n = Except.error e := by
  intro n
  induction n with
  | zero => intro h; omega
  | succ n ih =>
      intro h
      rcases Nat.lt_succ_iff_lt_or_eq.mp h with h' | h'
      · have := ih h'
        unfold runAux
        rw [this]
        rfl
      · subst h'
        unfold runAux
        rw [hk]
        simp only [bind, Except.bind]
        rw [he]

/-- C5, amended: when every candidate node's score is zero during a
`pick_move` step (for example, all remaining unvisited nodes have
distance `+inf`), the normalization `row / row.sum()` is `0/0 = nan`
elementwise, and `np.random.choice` raises `ValueError` (probabilities
contain NaN) -- there is no `NoFeasibleMoveError` anywhere in the code
(see the counterexample) -- so tour construction does fail rather than
sampling an invalid index, and `run` propagates the error from any ant
immediately, since nothing catches it. -/
theorem C5_zero_scores_raise_numpy_valueerror :
    (∀ (c : AntColony) (pheromone dist : ℕ → F) (visited : Finset ℕ)
      (oracle : ℕ),
      c.all_indexes.length = c.distances.cols →
      1 ≤ c.distances.cols →
      (∀ j, j < c.distances.cols → pickRow c pheromone dist visited j = F.fin 0) →
      pick_move c pheromone dist visited oracle =
        Except.error (RunError.choice NpChoiceError.probsContainNaN)) ∧
    (∀ (c : AntColony) (rand : ℕ → ℕ → ℕ → ℕ) (k : ℕ)
      (r : AntColony × (BestT × F) × List (List (List (ℕ × ℕ) × F)))
      (e : RunError),
      runAux c rand k = Except.ok r →
      generate_all_paths r.1 (rand k) = Except.error e →
      k < c.nr_iterations →
      run c rand = Except.error e) := by
  constructor
  · intro c pheromone dist visited oracle hlen hcols hzero
    have hsum : pickRowSum c pheromone dist visited = F.fin 0 := by
      unfold pickRowSum
      apply sumF_all_zero
      intro x hx
      rcases List.mem_map.mp hx with ⟨j, hj, hxj⟩
      rw [← hxj]
      exact hzero j (List.mem_range.mp hj)
    have hnorm : ∀ j, j < c.distances.cols →
        normRow c pheromone dist visited j = F.nan := by
      intro j hj
      unfold normRow
      rw [hzero j hj, hsum]
      simp [F.div]
    have hcheck : npChoiceCheck (normRow c pheromone dist visited)
        c.all_indexes.length c.distances.cols =
        some NpChoiceError.probsContainNaN := by
      unfold npChoiceCheck
      rw [if_neg (by omega : ¬c.all_indexes.length ≠ c.distances.cols)]
      have hany : ((List.range c.distances.cols).any
          (fun j => F.ltB (normRow c pheromone dist visited j) (F.fin 0))) = false := by
        rw [List.any_eq_false]
        intro x hx
        rw [hnorm x (List.mem_range.mp hx)]
        simp [F.ltB]
      rw [if_neg (by simp [hany])]
      have hnansum : (sumF ((List.range c.distances.cols).map
          (normRow c pheromone dist visited))).isNaN = true := by
        have hmem : F.nan ∈ (List.range c.distances.cols).map
            (normRow c pheromone dist visited) := by
          refine List.mem_map.mpr ⟨0, List.mem_range.mpr hcols, hnorm 0 hcols⟩
        rw [sumF_nan_of_mem hmem]
        rfl
      rw [if_pos hnansum]
    unfold pick_move
    rw [hcheck]
  · intro c rand k r e hk he hlt
    unfold run
    rw [runAux_error_propagates hk he c.nr_iterations hlt]
    rfl

/-- C5, counterexample: on the concrete colony `colonyStuck` (node 1
unreachable from the start: `distance(0,1) = +inf`), the run does fail,
but the error is the embedded numpy `ValueError` (probabilities contain
NaN, from the `0/0` normalization) -- not the `NoFeasibleMoveError` the
claim names, which exists nowhere in the code and is never produced. -/
theorem C5_cex_error_is_numpy_valueerror :
    run colonyStuck (fun _ _ _ => 1) =
      Except.error (RunError.choice NpChoiceError.probsContainNaN) ∧
    Except.error (RunError.choice NpChoiceError.probsContainNaN) ≠
      (Except.error RunError.noFeasibleMove : Except RunError (BestT × F)) :=
  ⟨by rfl', by decide⟩

/-- C5, witness: the amended theorem's propagation part applied at the
concrete colony `colonyStuck`: the first iteration's path generation
fails with the numpy `ValueError` and `run` returns exactly that error. -/
theorem C5_zero_scores_raise_numpy_valueerror_witness :
    run colonyStuck (fun _ _ _ => 0) =
      Except.error (RunError.choice NpChoiceError.probsContainNaN) :=
  C5_zero_scores_raise_numpy_valueerror.2 colonyStuck (fun _ _ _ => 0) 0
    (colonyStuck, (BestT.placeholder, F.inf), [])
    (RunError.choice NpChoiceError.probsContainNaN) rfl (by rfl') (by decide)

theorem insertSorted_perm (le : α → α → Bool) (a : α) :
    ∀ l : List α, (insertSorted le a l).Perm (a :: l)
  | [] => List.Perm.refl _
  | b :: l => by
      unfold insertSorted
      split
      · exact List.Perm.refl _
      · exact ((insertSorted_perm le a l).cons b).trans (List.Perm.swap a b l)

theorem sortedPy_perm (le : α → α → Bool) :
    ∀ l : List α, (sortedPy le l).Perm l
  | [] => List.Perm.refl _
  | x :: l => by
      unfold sortedPy
      rw [List.foldr_cons]
      exact (insertSorted_perm le x _).trans ((sortedPy_perm le l).cons x)

theorem mem_insertSorted {le : α → α → Bool} {a x : α} {l : List α} :
    x ∈ insertSorted le a l ↔ x ∈ a :: l :=
  (insertSorted_perm le a l).mem_iff

theorem pairwise_insertSorted {P : α → Prop} {le : α → α → Bool}
    (htrans : ∀ x y z, P x → P y → P z →
      le x y = true → le y z = true → le x z = true)
    (htot : ∀ x y, P x → P y → le x y = true ∨ le y x = true)
    {a : α} (ha : P a) :
    ∀ l : List α, (∀ x ∈ l, P x) → l.Pairwise (le · · = true) →
      (insertSorted le a l).Pairwise (le · · = true) := by
  intro l
  induction l with
  | nil =>
      intro _ _
      simp [insertSorted]
  | cons b l ih =>
      intro hP hpair
      rcases List.pairwise_cons.mp hpair with ⟨hb, hl⟩
      unfold insertSorted
      split
      · rename_i hab
        refine List.pairwise_cons.mpr ⟨?_, hpair⟩
        intro x hx
        rcases List.mem_cons.mp hx with hx | hx
        · subst hx; exact hab
        · exact htrans a b x ha (hP b (List.mem_cons_self b l))
            (hP x (List.mem_cons_of_mem b hx)) hab (hb x hx)
      · rename_i hab
        have hba : le b a = true := by
          rcases htot a b ha (hP b (List.mem_cons_self b l)) with h | h
          · exact absurd h hab
          · exact h
        refine List.pairwise_cons.mpr ⟨?_, ?_⟩
        · intro x hx
          rcases List.mem_cons.mp (mem_insertSorted.mp hx) with hx | hx
          · subst hx; exact hba
          · exact hb x hx
        · exact ih (fun x hx => hP x (List.mem_cons_of_mem b hx)) hl

theorem pairwise_sortedPy {P : α → Prop} {le : α → α → Bool}
    (htrans : ∀ x y z, P x → P y → P z →
      le x y = true → le y z = true → le x z = true)
    (htot : ∀ x y, P x → P y → le x y = true ∨ le y x = true) :
    ∀ l : List α, (∀ x ∈ l, P x) → (sortedPy le l).Pairwise (le · · = true) := by
  intro l
  induction l with
  | nil => intro _; exact List.Pairwise.nil
  | cons x l ih =>
      intro hP
      unfold sortedPy
      rw [List.foldr_cons]
      refine pairwise_insertSorted htrans htot (hP x (List.mem_cons_self x l))
        (sortedPy le l) ?_ (ih (fun y hy => hP y (List.mem_cons_of_mem x hy)))
      intro y hy
      exact hP y (List.mem_cons_of_mem x ((sortedPy_perm le l).mem_iff.mp hy))

theorem F.real_ltB_trans {a b c : F} (ha : a.IsReal) (hb : b.IsReal)
    (hc : c.IsReal) (h1 : F.ltB b a = false) (h2 : F.ltB c b = false) :
    F.ltB c a = false := by
  rcases ha with ha | ⟨q, ha⟩ <;> rcases hb with hb | ⟨r, hb⟩ <;>
    rcases hc with hc | ⟨s, hc⟩ <;> subst ha <;> subst hb <;> subst hc <;>
    simp_all [F.ltB]
  linarith

theorem F.real_ltB_total {a b : F} (ha : a.IsReal) (hb : b.IsReal) :
    F.ltB b a = false ∨ F.ltB a b = false := by
  rcases ha with ha | ⟨q, ha⟩ <;> rcases hb with hb | ⟨r, hb⟩ <;>
    subst ha <;> subst hb <;> simp_all [F.ltB]
  exact le_total q r

theorem F.leB_of_real_not_ltB {a b : F} (ha : a.IsReal) (hb : b.IsReal)
    (h : F.ltB b a = false) : F.leB a b = true := by
  rcases ha with ha | ⟨q, ha⟩ <;> rcases hb with hb | ⟨r, hb⟩ <;>
    subst ha <;> subst hb <;> simp_all [F.ltB, F.leB]

theorem F.addMany_add_left (x v : F) :
    ∀ k : ℕ, F.addMany (F.add x v) v k = F.add (F.addMany x v k) v
  | 0 => rfl
  | k + 1 => by rw [F.addMany, F.addMany, F.addMany_add_left x v k]

theorem reinforce_foldl_moves_count (dm : Mat) (moves : List (ℕ × ℕ)) :
    ∀ (m : Mat) (i j : ℕ),
      ((moves.foldl (fun m2 mv => reinforceMove m2 dm mv) m).entry i j) =
        F.addMany (m.entry i j) (F.div (F.fin 1) (dm.entry i j))
          (moves.count (i, j)) := by
  induction moves with
  | nil =>
      intro m i j
      simp [F.addMany]
  | cons mv moves ih =>
      intro m i j
      rw [List.foldl_cons]
      rw [ih (reinforceMove m dm mv) i j]
      by_cases hmv : mv = (i, j)
      · subst hmv
        rw [List.count_cons_self]
        have hentry : (reinforceMove m dm (i, j)).entry i j =
            F.add (m.entry i j) (F.div (F.fin 1) (dm.entry i j)) := by
          simp [reinforceMove]
        rw [hentry, F.addMany_add_left, ← F.addMany]
      · rw [List.count_cons_of_ne (fun h => hmv h.symm)]
        have hentry : (reinforceMove m dm mv).entry i j = m.entry i j := by
          simp only [reinforceMove]
          rw [if_neg]
          intro hc
          apply hmv
          rw [Prod.ext_iff]
          exact ⟨hc.1.symm, hc.2.symm⟩
        rw [hentry]

theorem F.addMany_addMany (x v : F) (k1 k2 : ℕ) :
    F.addMany (F.addMany x v k1) v k2 = F.addMany x v (k1 + k2) := by
  induction k2 with
  | zero => rfl
  | succ k2 ih => rw [F.addMany, ih, ← F.addMany]; rfl

theorem reinforce_foldl_paths_count (dm : Mat)
    (paths : List (List (ℕ × ℕ) × F)) :
    ∀ (m : Mat) (i j : ℕ),
      ((paths.foldl
          (fun m p => p.1.foldl (fun m2 mv => reinforceMove m2 dm mv) m)
          m).entry i j) =
        F.addMany (m.entry i j) (F.div (F.fin 1) (dm.entry i j))
          ((paths.map (fun p => p.1.count (i, j))).sum) := by
  induction paths with
  | nil =>
      intro m i j
      simp [F.addMany]
  | cons p paths ih =>
      intro m i j
      rw [List.foldl_cons, ih, reinforce_foldl_moves_count, F.addMany_addMany,
        List.map_cons, List.sum_cons]

/-- C6: `update_pheromone` reinforces using exactly the `nr_best`
lowest-length tours among those given.  Parts: (1) the sorted list the
selection is taken from is a permutation of the given tours; (2) every
selected tour's length is less than or equal to every unselected tour's
length; (3) every pheromone entry `(i,j)` of the result is the old entry
plus one `1/distance(i,j)` increment per occurrence of the move `(i,j)`
in a selected tour -- and only clipping follows, so the unselected tours
contribute nothing.  (For tour lengths that are actual extended reals,
as sums of nonnegative-or-infinite distances are.) -/
theorem C6_update_reinforces_nr_best_shortest (c : AntColony)
    (all_paths : List (List (ℕ × ℕ) × F))
    (hproper : ∀ p ∈ all_paths, (p.2 : F).IsReal) :
    (sortedPy pathLe all_paths).Perm all_paths ∧
    (∀ p ∈ (sortedPy pathLe all_paths).take c.nr_best,
      ∀ q ∈ (sortedPy pathLe all_paths).drop c.nr_best,
        F.leB p.2 q.2 = true) ∧
    (∀ i j, (update_pheromone c all_paths).pheromone.entry i j =
      F.clip
        (F.addMany (c.pheromone.entry i j)
          (F.div (F.fin 1) (c.distances.entry i j))
          ((((sortedPy pathLe all_paths).take c.nr_best).map
            (fun p => p.1.count (i, j))).sum))
        (F.fin c.phero_min) (F.fin c.phero_max)) := by
  have hperm := sortedPy_perm pathLe all_paths
  have hmemP : ∀ x ∈ sortedPy pathLe all_paths, (x.2 : F).IsReal :=
    fun x hx => hproper x (hperm.mem_iff.mp hx)
  refine ⟨hperm, ?_, ?_⟩
  · have hpair : (sortedPy pathLe all_paths).Pairwise (pathLe · · = true) := by
      refine pairwise_sortedPy (P := fun p => (p.2 : F).IsReal)
        ?_ ?_ all_paths hproper
      · intro x y z hx hy hz h1 h2
        unfold pathLe at h1 h2 ⊢
        rw [Bool.not_eq_true'] at h1 h2 ⊢
        exact F.real_ltB_trans hx hy hz h1 h2
      · intro x y hx hy
        unfold pathLe
        rw [Bool.not_eq_true', Bool.not_eq_true']
        exact F.real_ltB_total hx hy
    intro p hp q hq
    have hrel : pathLe p q = true := by
      have hsplit := List.take_append_drop c.nr_best (sortedPy pathLe all_paths)
      rw [← hsplit] at hpair
      exact (List.pairwise_append.mp hpair).2.2 p hp q hq
    unfold pathLe at hrel
    rw [Bool.not_eq_eq_eq_not] at hrel
    exact F.leB_of_real_not_ltB
      (hmemP p (List.mem_of_mem_take hp))
      (hmemP q (List.mem_of_mem_drop hq)) hrel
  · intro i j
    have hrfl : (update_pheromone c all_paths).pheromone.entry i j =
        F.clip
          ((((sortedPy pathLe all_paths).take c.nr_best).foldl
            (fun m p => p.1.foldl (fun m2 mv => reinforceMove m2 c.distances mv) m)
            c.pheromone).entry i j)
          (F.fin c.phero_min) (F.fin c.phero_max) := rfl
    rw [hrfl, reinforce_foldl_paths_count]

/-- C6, witness: the reinforcement characterization applied to the
concrete colony `colonyHalf` (with `nr_best = 1`) and the two concrete
paths of `samplePaths`. -/
theorem C6_update_reinforces_nr_best_shortest_witness :
    (sortedPy pathLe samplePaths).Perm samplePaths ∧
    (∀ p ∈ (sortedPy pathLe samplePaths).take colonyHalf.nr_best,
      ∀ q ∈ (sortedPy pathLe samplePaths).drop colonyHalf.nr_best,
        F.leB p.2 q.2 = true) ∧
    (∀ i j, (update_pheromone colonyHalf samplePaths).pheromone.entry i j =
      F.clip
        (F.addMany (colonyHalf.pheromone.entry i j)
          (F.div (F.fin 1) (colonyHalf.distances.entry i j))
          ((((sortedPy pathLe samplePaths).take colonyHalf.nr_best).map
            (fun p => p.1.count (i, j))).sum))
        (F.fin colonyHalf.phero_min) (F.fin colonyHalf.phero_max)) :=
  C6_update_reinforces_nr_best_shortest colonyHalf samplePaths (by decide)

theorem foldl_add_isReal :
    ∀ (l : List F) (acc : F), acc.IsReal → (∀ x ∈ l, x.IsReal) →
      (l.foldl F.add acc).IsReal := by
  intro l
  induction l with
  | nil => intro acc hacc _; exact hacc
  | cons x l ih =>
      intro acc hacc h
      rw [List.foldl_cons]
      exact ih (F.add acc x)
        (F.isReal_add hacc (h x (List.mem_cons_self x l)))
        (fun y hy => h y (List.mem_cons_of_mem x hy))

theorem sumF_isReal {l : List F} (h : ∀ x ∈ l, x.IsReal) :
    (sumF l).IsReal :=
  foldl_add_isReal l (F.fin 0) (Or.inr ⟨0, rfl⟩) h

theorem minF_isReal {a b : F} (ha : a.IsReal) (hb : b.IsReal) :
    (minF a b).IsReal := by
  unfold minF
  split
  · exact hb
  · exact ha

theorem minF_inf_left {x : F} (hx : x.IsReal) : minF F.inf x = x := by
  rcases hx with hx | ⟨q, hx⟩ <;> subst hx <;> simp [minF, F.ltB]

theorem F.leB_refl_real {a : F} (ha : a.IsReal) : F.leB a a = true := by
  rcases ha with ha | ⟨q, ha⟩ <;> subst ha <;> simp [F.leB]

theorem F.leB_of_ltB_real {a b : F} (ha : a.IsReal) (hb : b.IsReal)
    (h : F.ltB a b = true) : F.leB a b = true := by
  rcases ha with ha | ⟨q, ha⟩ <;> rcases hb with hb | ⟨r, hb⟩ <;>
    subst ha <;> subst hb <;> simp_all [F.ltB, F.leB]
  linarith

theorem leB_minF_left {a b : F} (ha : a.IsReal) (hb : b.IsReal) :
    F.leB (minF a b) a = true := by
  unfold minF
  split
  · rename_i h
    exact F.leB_of_ltB_real hb ha h
  · exact F.leB_refl_real ha

theorem minF_assoc_real {a b c : F} (ha : a.IsReal) (hb : b.IsReal)
    (hc : c.IsReal) : minF (minF a b) c = minF a (minF b c) := by
  rcases ha with ha | ⟨q, ha⟩ <;> rcases hb with hb | ⟨r, hb⟩ <;>
    rcases hc with hc | ⟨s, hc⟩ <;> subst ha <;> subst hb <;> subst hc <;>
    simp only [minF, F.ltB] <;> split_ifs <;> simp_all <;> linarith

theorem foldl_minF_shift :
    ∀ (xs : List F) (a b : F), a.IsReal → b.IsReal → (∀ x ∈ xs, x.IsReal) →
      xs.foldl minF (minF a b) = minF a (xs.foldl minF b) := by
  intro xs
  induction xs with
  | nil => intro a b _ _ _; rfl
  | cons x xs ih =>
      intro a b ha hb hxs
      rw [List.foldl_cons, List.foldl_cons,
        minF_assoc_real ha hb (hxs x (List.mem_cons_self x xs))]
      exact ih a (minF b x) ha
        (minF_isReal hb (hxs x (List.mem_cons_self x xs)))
        (fun y hy => hxs y (List.mem_cons_of_mem x hy))

theorem foldl_minF_isReal :
    ∀ (xs : List F) (a : F), a.IsReal → (∀ x ∈ xs, x.IsReal) →
      (xs.foldl minF a).IsReal := by
  intro xs
  induction xs with
  | nil => intro a ha _; exact ha
  | cons x xs ih =>
      intro a ha hxs
      rw [List.foldl_cons]
      exact ih (minF a x) (minF_isReal ha (hxs x (List.mem_cons_self x xs)))
        (fun y hy => hxs y (List.mem_cons_of_mem x hy))

theorem foldl_minF_all_inf :
    ∀ xs : List F, (∀ x ∈ xs, x = F.inf) → xs.foldl minF F.inf = F.inf := by
  intro xs
  induction xs with
  | nil => intro _; rfl
  | cons x xs ih =>
      intro h
      rw [List.foldl_cons]
      have hx := h x (List.mem_cons_self x xs)
      subst hx
      have : minF F.inf F.inf = F.inf := rfl
      rw [this]
      exact ih (fun y hy => h y (List.mem_cons_of_mem _ hy))

theorem pyMin_snd {α : Type _} :
    ∀ (t : List (α × F)) (h : α × F),
      (pyMin h t).2 = (t.map Prod.snd).foldl minF h.2 := by
  intro t
  induction t with
  | nil => intro h; rfl
  | cons x t ih =>
      intro h
      unfold pyMin
      rw [List.foldl_cons, List.map_cons, List.foldl_cons]
      have hstep : (if F.ltB x.2 h.2 = true then x else h).2 = minF h.2 x.2 := by
        unfold minF
        exact apply_ite Prod.snd (F.ltB x.2 h.2 = true) x h
      rw [← hstep]
      exact ih _

theorem update_pheromone_distances (c : AntColony)
    (ps : List (List (ℕ × ℕ) × F)) :
    (update_pheromone c ps).distances = c.distances := rfl

theorem generate_all_paths_lengths {c : AntColony} {rand : ℕ → ℕ → ℕ}
    {paths : List (List (ℕ × ℕ) × F)}
    (hd : ∀ i j, (c.distances.entry i j).IsReal)
    (h : generate_all_paths c rand = Except.ok paths) :
    ∀ p ∈ paths, (p.2 : F).IsReal := by
  intro p hp
  unfold generate_all_paths at h
  rcases hmap : (List.range c.nr_ants).mapM (fun i => generate_path c 0 (rand i))
    with e | ps
  · rw [hmap] at h; cases h
  · rw [hmap] at h
    simp only [bind, Except.bind] at h
    cases h
    rcases List.mem_map.mp hp with ⟨path, _, hpath⟩
    rw [← hpath]
    exact sumF_isReal (by
      intro x hx
      rcases List.mem_map.mp hx with ⟨mv, _, hmv⟩
      rw [← hmv]
      exact hd mv.1 mv.2)

theorem traceLengths_append (tr : List (List (List (ℕ × ℕ) × F)))
    (it : List (List (ℕ × ℕ) × F)) :
    traceLengths (tr ++ [it]) = traceLengths tr ++ it.map Prod.snd := by
  unfold traceLengths
  rw [List.map_append, List.flatten_append]
  simp

/-- The loop invariant of `run`: the distance matrix never changes, every
recorded tour length is an actual extended real, the running best length
is the `minF`-fold of every length generated so far (starting from the
sentinel `+inf`), and if every generated length is `+inf` the running
pair is still the untouched sentinel `("placeholder", +inf)`. -/
theorem runAux_invariant {c : AntColony} {rand : ℕ → ℕ → ℕ → ℕ}
    (hd : ∀ i j, (c.distances.entry i j).IsReal) :
    ∀ (k : ℕ) (r : AntColony × (BestT × F) × List (List (List (ℕ × ℕ) × F))),
      runAux c rand k = Except.ok r →
      r.1.distances = c.distances ∧
      (∀ len ∈ traceLengths r.2.2, (len : F).IsReal) ∧
      (r.2.1.2 : F).IsReal ∧
      r.2.1.2 = (traceLengths r.2.2).foldl minF F.inf ∧
      ((∀ len ∈ traceLengths r.2.2, len = F.inf) →
        r.2.1 = (BestT.placeholder, F.inf)) := by
  intro k
  induction k with
  | zero =>
      intro r h
      unfold runAux at h
      cases h
      refine ⟨rfl, ?_, Or.inl rfl, rfl, fun _ => rfl⟩
      intro len hlen
      simp [traceLengths] at hlen
  | succ k ih =>
      intro r' h
      unfold runAux at h
      rcases hk : runAux c rand k with e | r
      · rw [hk] at h; cases h
      · rw [hk] at h
        simp only [bind, Except.bind] at h
        rcases hgen : generate_all_paths r.1 (rand k) with e | paths
        · rw [hgen] at h; cases h
        · rw [hgen] at h
          simp only at h
          rcases paths with _ | ⟨hp, tp⟩
          · cases h
          · simp only at h
            cases h
            obtain ⟨hdist, htrace, hbreal, hfold, hplace⟩ := ih r hk
            have hd2 : ∀ i j, (r.1.distances.entry i j).IsReal := by
              rw [hdist]; exact hd
            have hlens : ∀ p ∈ hp :: tp, (p.2 : F).IsReal :=
              generate_all_paths_lengths hd2 hgen
            have hlens2 : ∀ x ∈ tp.map Prod.snd, (x : F).IsReal := by
              intro x hx
              rcases List.mem_map.mp hx with ⟨p, hpmem, hpx⟩
              rw [← hpx]
              exact hlens p (List.mem_cons_of_mem hp hpmem)
            have hhp2 : (hp.2 : F).IsReal := hlens hp (List.mem_cons_self hp tp)
            have hs2 : (pyMin hp tp).2 = (tp.map Prod.snd).foldl minF hp.2 :=
              pyMin_snd tp hp
            have hs2real : ((pyMin hp tp).2 : F).IsReal := by
              rw [hs2]
              exact foldl_minF_isReal _ hp.2 hhp2 hlens2
            have hbest2 : (if F.ltB (pyMin hp tp).2 r.2.1.2 = true
                then (BestT.tour (pyMin hp tp).1, (pyMin hp tp).2)
                else r.2.1).2 = minF r.2.1.2 (pyMin hp tp).2 := by
              unfold minF
              exact apply_ite Prod.snd (F.ltB (pyMin hp tp).2 r.2.1.2 = true) _ _
            have hfold2 : (traceLengths (r.2.2 ++ [hp :: tp])).foldl minF F.inf =
                minF r.2.1.2 (pyMin hp tp).2 := by
              rw [traceLengths_append, List.foldl_append, ← hfold,
                List.map_cons, List.foldl_cons,
                foldl_minF_shift (tp.map Prod.snd) r.2.1.2 hp.2 hbreal hhp2 hlens2,
                hs2]
            refine ⟨?_, ?_, ?_, ?_, ?_⟩
            · rw [update_pheromone_distances]; exact hdist
            · intro len hlen
              rw [traceLengths_append] at hlen
              rcases List.mem_append.mp hlen with hlen | hlen
              · exact htrace len hlen
              · rcases List.mem_map.mp hlen with ⟨p, hpmem, hpl⟩
                rw [← hpl]
                exact hlens p hpmem
            · rw [hbest2]
              exact minF_isReal hbreal hs2real
            · rw [hbest2, hfold2]
            · intro hallinf
              have hprev : ∀ len ∈ traceLengths r.2.2, len = F.inf := by
                intro len hlen
                exact hallinf len (by
                  rw [traceLengths_append]
                  exact List.mem_append.mpr (Or.inl hlen))
              have hnew : ∀ len ∈ (hp :: tp).map Prod.snd, len = F.inf := by
                intro len hlen
                exact hallinf len (by
                  rw [traceLengths_append]
                  exact List.mem_append.mpr (Or.inr hlen))
              have hb : r.2.1 = (BestT.placeholder, F.inf) := hplace hprev
              have hhpinf : hp.2 = F.inf :=
                hnew hp.2 (List.mem_map.mpr ⟨hp, List.mem_cons_self hp tp, rfl⟩)
              have hsinf : (pyMin hp tp).2 = F.inf := by
                rw [hs2, hhpinf]
                refine foldl_minF_all_inf _ ?_
                intro x hx
                rcases List.mem_map.mp hx with ⟨p, hpmem, hpx⟩
                rw [← hpx]
                exact hnew p.2 (List.mem_map.mpr
                  ⟨p, List.mem_cons_of_mem hp hpmem, rfl⟩)
              rw [hb, hsinf, if_neg (by simp [F.ltB])]

/-- C7: across the iterations of `run`, the tracked best-ever length is
non-increasing: whenever iteration `k` completes, the new best length
equals the minimum of its previous value and the shortest length of the
tours generated in that iteration; and the pair `run` ultimately returns
carries length equal to the `minF`-fold (starting from the sentinel
`+inf`) of every tour length generated in every iteration.  (For a
colony whose distance entries are actual extended reals.) -/
theorem C7_best_length_tracking (c : AntColony) (rand : ℕ → ℕ → ℕ → ℕ)
    (hd : ∀ i j, (c.distances.entry i j).IsReal) :
    (∀ (k : ℕ) r r1, runAux c rand k = Except.ok r →
      runAux c rand (k + 1) = Except.ok r1 →
      ∃ paths, generate_all_paths r.1 (rand k) = Except.ok paths ∧
        r1.2.1.2 = minF r.2.1.2 ((paths.map Prod.snd).foldl minF F.inf) ∧
        F.leB r1.2.1.2 r.2.1.2 = true) ∧
    (∀ r, runAux c rand c.nr_iterations = Except.ok r →
      run c rand = Except.ok r.2.1 ∧
      r.2.1.2 = (traceLengths r.2.2).foldl minF F.inf) := by
  constructor
  · intro k r r1 hk h1
    obtain ⟨hdist, _, hbreal, _, _⟩ := runAux_invariant hd k r hk
    unfold runAux at h1
    rw [hk] at h1
    simp only [bind, Except.bind] at h1
    rcases hgen : generate_all_paths r.1 (rand k) with e | paths
    · rw [hgen] at h1; cases h1
    · rw [hgen] at h1
      simp only at h1
      rcases paths with _ | ⟨hp, tp⟩
      · cases h1
      · simp only at h1
        cases h1
        refine ⟨hp :: tp, rfl, ?_, ?_⟩
        all_goals
          have hd2 : ∀ i j, (r.1.distances.entry i j).IsReal := by
            rw [hdist]; exact hd
          have hlens : ∀ p ∈ hp :: tp, (p.2 : F).IsReal :=
            generate_all_paths_lengths hd2 hgen
          have hlens2 : ∀ x ∈ tp.map Prod.snd, (x : F).IsReal := by
            intro x hx
            rcases List.mem_map.mp hx with ⟨p, hpmem, hpx⟩
            rw [← hpx]
            exact hlens p (List.mem_cons_of_mem hp hpmem)
          have hhp2 : (hp.2 : F).IsReal := hlens hp (List.mem_cons_self hp tp)
          have hbest2 : (if F.ltB (pyMin hp tp).2 r.2.1.2 = true
              then (BestT.tour (pyMin hp tp).1, (pyMin hp tp).2)
              else r.2.1).2 = minF r.2.1.2 (pyMin hp tp).2 := by
            unfold minF
            exact apply_ite Prod.snd (F.ltB (pyMin hp tp).2 r.2.1.2 = true) _ _
          have hs2real : ((pyMin hp tp).2 : F).IsReal := by
            rw [pyMin_snd tp hp]
            exact foldl_minF_isReal _ hp.2 hhp2 hlens2
        · rw [hbest2]
          have hrhs : ((hp :: tp).map Prod.snd).foldl minF F.inf =
              (pyMin hp tp).2 := by
            rw [List.map_cons, List.foldl_cons, minF_inf_left hhp2,
              pyMin_snd tp hp]
          rw [hrhs]
        · rw [hbest2]
          exact leB_minF_left hbreal hs2real
  · intro r hr
    refine ⟨?_, (runAux_invariant hd c.nr_iterations r hr).2.2.2.1⟩
    unfold run
    rw [hr]
    rfl

/-- C10: if `nr_iterations` is 0, or if every tour generated in every
iteration has length `+inf`, `run` returns the untouched sentinel pair
`("placeholder", +inf)` -- a placeholder string in place of a tour --
rather than raising or returning an actual tour: the strict comparison
`shortest < best` never fires against the `+inf` sentinel. -/
theorem C10_run_returns_placeholder_sentinel (c : AntColony)
    (rand : ℕ → ℕ → ℕ → ℕ) (hd : ∀ i j, (c.distances.entry i j).IsReal) :
    (c.nr_iterations = 0 →
      run c rand = Except.ok (BestT.placeholder, F.inf)) ∧
    (∀ r, runAux c rand c.nr_iterations = Except.ok r →
      (∀ len ∈ traceLengths r.2.2, len = F.inf) →
      run c rand = Except.ok (BestT.placeholder, F.inf)) := by
  constructor
  · intro h0
    unfold run
    rw [h0]
    rfl
  · intro r hr hallinf
    have hb := (runAux_invariant hd c.nr_iterations r hr).2.2.2.2 hallinf
    unfold run
    rw [hr]
    show Except.ok r.2.1 = _
    rw [hb]

/-- C7, witness: on the concrete colony `colonyAlpha1` (one ant, one
iteration, all distances 1), `run` returns the tour `[(0,1),(1,0)]` of
length 2, and that length is the `minF`-fold of the single generated
trace. -/
theorem C7_best_length_tracking_witness :
    run colonyAlpha1 (fun _ _ _ => 1) =
      Except.ok (BestT.tour [(0, 1), (1, 0)], F.fin 2) ∧
    (F.fin 2 : F) =
      (traceLengths [[([(0, 1), (1, 0)], F.fin 2)]]).foldl minF F.inf :=
  (C7_best_length_tracking colonyAlpha1 (fun _ _ _ => 1)
      (fun _ _ => Or.inr ⟨1, rfl⟩)).2
    (update_pheromone colonyAlpha1 [([(0, 1), (1, 0)], F.fin 2)],
      (BestT.tour [(0, 1), (1, 0)], F.fin 2),
      [[([(0, 1), (1, 0)], F.fin 2)]])
    (by rfl')

/-- C10, witness: on the concrete colony `colonyInfLen`, the one tour
generated closes over a `+inf` edge, so every generated length is `+inf`
and `run` returns the sentinel `("placeholder", +inf)`. -/
theorem C10_run_returns_placeholder_sentinel_witness :
    run colonyInfLen (fun _ _ _ => 1) =
      Except.ok (BestT.placeholder, F.inf) :=
  (C10_run_returns_placeholder_sentinel colonyInfLen (fun _ _ _ => 1)
      (fun i j => by
        show (if i = 0 ∧ j = 1 then F.fin 1 else F.inf).IsReal
        split
        · exact Or.inr ⟨1, rfl⟩
        · exact Or.inl rfl)).2
    (update_pheromone colonyInfLen [([(0, 1), (1, 0)], F.inf)],
      (BestT.placeholder, F.inf),
      [[([(0, 1), (1, 0)], F.inf)]])
    (by rfl') (by decide)

end ACO
